import Mathlib

/-!
Shallow embedding of the polynomial layer of a Kyber/ML-KEM implementation
(`src/reference/poly.rs`): the `Poly` type (an array of 256 signed 16-bit
coefficients), the serialization codec `poly_tobytes` / `poly_frombytes`,
the lossy compression codec `poly_compress` / `poly_decompress`, message
encoding `poly_frommsg` / `poly_tomsg`, plain arithmetic `poly_add` /
`poly_sub` / `poly_reduce`, and the NTT glue `poly_ntt` /
`poly_invntt_tomont`.

Machine integers are embedded as `Nat` / `Int` with explicit two's-complement
wrapping (`% 2^16`, `% 2^32`) at every point where the Rust code computes in a
fixed-width type whose value range can be exceeded.  A `u8` array is a
`List Nat` whose entries are below 256; an `[i16; 256]` array is a `List Int`
whose entries lie in `[-32768, 32768)`.  Fallible paths (the `panic!` on an
unsupported compressed width) are embedded as `Option`.
-/

namespace KyberPoly

/-- Ring degree `KYBER_N = 256` (from `params.rs`, consumed as a constant). -/
def KYBER_N : Nat := 256

/-- Modulus `KYBER_Q = 3329` (from `params.rs`, consumed as a constant). -/
def KYBER_Q : Nat := 3329

/-- `pub(crate) struct Poly { coeffs: [i16; KYBER_N] }`: the coefficient
array, embedded as a list of integers (theorems carry the length and the
16-bit range as hypotheses where they matter). -/
abbrev Poly := List Int

/-- Two's-complement 16-bit pattern of an `i16` value: `u as u16`. -/
def bits16 (u : Int) : Nat := (u % 65536).toNat

/-- Cast of an unsigned value to `i16` (two's complement): takes the low
16 bits and reinterprets them as a signed value. -/
def i16cast (v : Nat) : Int :=
  if v % 65536 < 32768 then ((v % 65536 : Nat) : Int)
  else ((v % 65536 : Nat) : Int) - 65536

/-- Wrapping of an `i16` arithmetic result (Rust release-mode overflow
semantics for `+` / `-` on `i16`). -/
def wrap16 (x : Int) : Int := (x + 32768) % 65536 - 32768

/-- `u += (u >> 15) & KYBER_Q as i16` from `poly_tobytes` / `poly_compress`:
the arithmetic shift of an `i16` by 15 is `-1` exactly when `u` is negative
(else `0`), and `(-1) &&& q = q`, `0 &&& q = 0`, so the line adds `q` to
negative coefficients and leaves the others unchanged. -/
def csubq_fixup (u : Int) : Int := u + (if u < 0 then (KYBER_Q : Int) else 0)

/-- Centered distance between two residues modulo `q` (used to state the
quantization-error and noise-tolerance bounds). -/
def distq (a b : Int) : Int :=
  min ((a - b) % (KYBER_Q : Int)) ((b - a) % (KYBER_Q : Int))

/-- Positive standard representative modulo `q`. -/
def canonicalize (x : Int) : Int := x % (KYBER_Q : Int)

/-! ## Serialization codec (`poly_tobytes` / `poly_frombytes`) -/

/-- One output byte of `poly_tobytes` for the coefficient pair `(t0, t1)`
(values after the sign fix-up), from

```
r[3*i]     = (t0) as u8;
r[3*i + 1] = ((t0 >> 8) | (t1 << 4)) as u8;
r[3*i + 2] = (t1 >> 4) as u8;
```

A `u8` cast takes the low byte of the 16-bit two's-complement pattern; the
low byte of an `i16` `|` is the `|` of the low bytes, the low byte of
`t0 >> 8` (arithmetic) is bits 8–15 of the pattern, and the low byte of
`t1 >> 4` is bits 4–11 of the pattern. -/
def tobytes_byte (t0 t1 : Int) (m : Nat) : Nat :=
  match m with
  | 0 => bits16 t0 &&& 255
  | 1 => ((bits16 t0 >>> 8) &&& 255) ||| ((bits16 t1 <<< 4) &&& 255)
  | _ => (bits16 t1 >>> 4) &&& 255

/-- `poly_tobytes`: serialize 256 coefficients into `3 * 256 / 2 = 384`
bytes, two coefficients per three bytes, after the branchless sign fix-up.
The loop writes bytes `3*i`, `3*i+1`, `3*i+2` from the coefficient pair
`(2*i, 2*i+1)`; byte `kb` therefore belongs to pair `i = kb / 3` with
position `kb % 3`. -/
def poly_tobytes (a : Poly) : List Nat :=
  (List.range (3 * (KYBER_N / 2))).map fun kb =>
    tobytes_byte (csubq_fixup (a.getD (2 * (kb / 3)) 0))
      (csubq_fixup (a.getD (2 * (kb / 3) + 1) 0)) (kb % 3)

/-- One output coefficient of `poly_frombytes` from the byte triple
`(a0, a1, a2)`, from

```
r.coeffs[2*i]   = ((a[3*i]) as u16 | ((a[3*i+1] as u16) << 8) & 0xFFF) as i16;
r.coeffs[2*i+1] = ((a[3*i+1] >> 4) as u16 | ((a[3*i+2] as u16) << 4) & 0xFFF) as i16;
```

(`&` binds tighter than `|` in Rust, so the mask applies to the shifted
term only). -/
def frombytes_coeff (a0 a1 a2 : Nat) (odd : Bool) : Int :=
  if odd then i16cast ((a1 >>> 4) ||| ((a2 <<< 4) &&& 0xFFF))
  else i16cast (a0 ||| ((a1 <<< 8) &&& 0xFFF))

/-- `poly_frombytes`: coefficient `k` comes from byte triple
`3*(k/2), 3*(k/2)+1, 3*(k/2)+2`, odd/even selecting the layout. -/
def poly_frombytes (a : List Nat) : Poly :=
  (List.range KYBER_N).map fun k =>
    frombytes_coeff (a.getD (3 * (k / 2)) 0) (a.getD (3 * (k / 2) + 1) 0)
      (a.getD (3 * (k / 2) + 2) 0) (k % 2 == 1)

/-! ## Compression codec (`poly_compress` / `poly_decompress`)

The unsupported-width arm (`_ => panic!(...)`) is embedded as `none`. -/

/-- One compressed 4-bit value of `poly_compress` in the 128-byte mode:

```
u = a.coeffs[8*i+j];
u += (u >> 15) & KYBER_Q as i16;
let mut tmp: u32 = (((u as u16) << 4) + KYBER_Q as u16 / 2) as u32;
tmp *= 315;  tmp >>= 20;
t[j] = ((tmp as u16) & 15) as u8;
```

The shift and the addition happen in `u16` (wrapping at `2^16`), the
multiplication in `u32` (wrapping at `2^32`). -/
def compress4_coeff (x : Int) : Nat :=
  let u : Int := csubq_fixup x
  let t : Nat := ((bits16 u <<< 4) % 65536 + KYBER_Q / 2) % 65536
  (((t * 315) % 4294967296) >>> 20) &&& 15

/-- Two's-complement 32-bit pattern of an `i16` value: `u as u32`
(sign extension). -/
def bits32 (u : Int) : Nat := (u % 4294967296).toNat

/-- One compressed 5-bit value of `poly_compress` in the 160-byte mode:

```
u = a.coeffs[8*i+j];
u += (u >> 15) & KYBER_Q as i16;
let mut tmp: u32 = ((u as u32) << 5) + KYBER_Q as u32 / 2;
tmp *= 315;  tmp >>= 20;
t[j] = ((tmp as u16) & 31) as u8;
```

All arithmetic is in `u32` (wrapping at `2^32`). -/
def compress5_coeff (x : Int) : Nat :=
  let u : Int := csubq_fixup x
  let t : Nat := ((bits32 u <<< 5) % 4294967296 + KYBER_Q / 2) % 4294967296
  (((t * 315) % 4294967296) >>> 20) &&& 31

/-- Byte `m ∈ [0,4)` of a block of the 128-byte mode, from

```
r[k]     = t[0] | (t[1] << 4);
r[k + 1] = t[2] | (t[3] << 4);
r[k + 2] = t[4] | (t[5] << 4);
r[k + 3] = t[6] | (t[7] << 4);
```

(`u8` shifts wrap at 256). -/
def pack128_byte (t : Nat → Nat) (m : Nat) : Nat :=
  t (2 * m) ||| ((t (2 * m + 1) <<< 4) % 256)

/-- Byte `m ∈ [0,5)` of a block of the 160-byte mode, from

```
r[k]     = t[0] | (t[1] << 5);
r[k + 1] = (t[1] >> 3) | (t[2] << 2) | (t[3] << 7);
r[k + 2] = (t[3] >> 1) | (t[4] << 4);
r[k + 3] = (t[4] >> 4) | (t[5] << 1) | (t[6] << 6);
r[k + 4] = (t[6] >> 2) | (t[7] << 3);
```

(`u8` shifts wrap at 256). -/
def pack160_byte (t : Nat → Nat) (m : Nat) : Nat :=
  match m with
  | 0 => t 0 ||| ((t 1 <<< 5) % 256)
  | 1 => (t 1 >>> 3) ||| ((t 2 <<< 2) % 256) ||| ((t 3 <<< 7) % 256)
  | 2 => (t 3 >>> 1) ||| ((t 4 <<< 4) % 256)
  | 3 => (t 4 >>> 4) ||| ((t 5 <<< 1) % 256) ||| ((t 6 <<< 6) % 256)
  | _ => (t 6 >>> 2) ||| ((t 7 <<< 3) % 256)

/-- `poly_compress`, parameterized by the configured
`KYBER_POLY_COMPRESSED_BYTES`.  The 128-byte mode writes 4 bytes per block
of 8 coefficients (`i = kb / 4`, byte position `kb % 4`); the 160-byte mode
writes 5 bytes per block (`i = kb / 5`, byte position `kb % 5`).  Any other
width panics (`none`). -/
def poly_compress (compressedBytes : Nat) (a : Poly) : Option (List Nat) :=
  match compressedBytes with
  | 128 => some ((List.range 128).map fun kb =>
      pack128_byte (fun j => compress4_coeff (a.getD (8 * (kb / 4) + j) 0)) (kb % 4))
  | 160 => some ((List.range 160).map fun kb =>
      pack160_byte (fun j => compress5_coeff (a.getD (8 * (kb / 5) + j) 0)) (kb % 5))
  | _ => none

/-- One output coefficient of `poly_decompress` in the 128-byte mode:
`(((c as usize * KYBER_Q) + 8) >> 4) as i16` where `c` is a nibble. -/
def decompress4_coeff (c : Nat) : Int := i16cast ((c * KYBER_Q + 8) >>> 4)

/-- The 5-bit field `t[j]` recovered by `poly_decompress` in the 160-byte
mode from the byte group `(a0, a1, a2, a3, a4)`:

```
t[0] = a[idx];
t[1] = (a[idx] >> 5) | (a[idx + 1] << 3);
t[2] = a[idx + 1] >> 2;
t[3] = (a[idx + 1] >> 7) | (a[idx + 2] << 1);
t[4] = (a[idx + 2] >> 4) | (a[idx + 3] << 4);
t[5] = a[idx + 3] >> 1;
t[6] = (a[idx + 3] >> 6) | (a[idx + 4] << 2);
t[7] = a[idx + 4] >> 3;
```

(`u8` shifts wrap at 256). -/
def unpack160_field (a0 a1 a2 a3 a4 : Nat) (j : Nat) : Nat :=
  match j with
  | 0 => a0
  | 1 => (a0 >>> 5) ||| ((a1 <<< 3) % 256)
  | 2 => a1 >>> 2
  | 3 => (a1 >>> 7) ||| ((a2 <<< 1) % 256)
  | 4 => (a2 >>> 4) ||| ((a3 <<< 4) % 256)
  | 5 => a3 >>> 1
  | 6 => (a3 >>> 6) ||| ((a4 <<< 2) % 256)
  | _ => a4 >>> 3

/-- One output coefficient of `poly_decompress` in the 160-byte mode:
`((((t[j] as u32) & 31) * KYBER_Q as u32 + 16) >> 5) as i16`. -/
def decompress5_coeff (t : Nat) : Int :=
  i16cast (((t &&& 31) * KYBER_Q + 16) >>> 5)

/-- `poly_decompress`, parameterized by the configured
`KYBER_POLY_COMPRESSED_BYTES`.  In the 128-byte mode coefficient `k` comes
from the low (even `k`) or high (odd `k`) nibble of byte `k / 2`; in the
160-byte mode coefficient `k` is field `k % 8` of the 5-byte group starting
at `5 * (k / 8)`.  Any other width panics (`none`). -/
def poly_decompress (compressedBytes : Nat) (a : List Nat) : Option Poly :=
  match compressedBytes with
  | 128 => some ((List.range KYBER_N).map fun k =>
      if k % 2 == 0 then decompress4_coeff (a.getD (k / 2) 0 &&& 15)
      else decompress4_coeff (a.getD (k / 2) 0 >>> 4))
  | 160 => some ((List.range KYBER_N).map fun k =>
      decompress5_coeff
        (unpack160_field (a.getD (5 * (k / 8)) 0) (a.getD (5 * (k / 8) + 1) 0)
          (a.getD (5 * (k / 8) + 2) 0) (a.getD (5 * (k / 8) + 3) 0)
          (a.getD (5 * (k / 8) + 4) 0) (k % 8)))
  | _ => none

/-! ## Message encode/decode (`poly_frommsg` / `poly_tomsg`) -/

/-- One coefficient of `poly_frommsg` from message byte `b`, bit `j`:

```
mask = ((msg[i] as u16 >> j) & 1).wrapping_neg();
r.coeffs[8*i+j] = (mask & ((KYBER_Q + 1) / 2) as u16) as i16;
```

`wrapping_neg` on `u16` is `(65536 - x) % 65536`; the result of the mask is
at most 1665 < 2^15, so the final `i16` cast preserves the value. -/
def frommsg_coeff (b j : Nat) : Int :=
  ((((65536 - ((b >>> j) &&& 1)) % 65536) &&& ((KYBER_Q + 1) / 2) : Nat) : Int)

/-- `poly_frommsg`: coefficient `k` is built from bit `k % 8` of message
byte `k / 8`. -/
def poly_frommsg (msg : List Nat) : Poly :=
  (List.range KYBER_N).map fun k => frommsg_coeff (msg.getD (k / 8) 0) (k % 8)

/-- One decoded bit of `poly_tomsg` from the coefficient `c`:

```
t = a.coeffs[8*i+j] as u32;
t <<= 1;
t = t.wrapping_add(1665);
t = t.wrapping_mul(80635);
t >>= 28;
t &= 1;
```

The `u32` cast of an `i16` sign-extends (two's complement); shift, add and
multiply wrap at `2^32`. -/
def tomsg_bit (c : Int) : Nat :=
  let t : Nat := bits32 c
  let t : Nat := (t <<< 1) % 4294967296
  let t : Nat := (t + 1665) % 4294967296
  let t : Nat := (t * 80635) % 4294967296
  (t >>> 28) &&& 1

/-- `poly_tomsg`: message byte `i` starts at 0 and ors in the decoded bit of
coefficient `8*i + j` at position `j`, for `j = 0, …, 7`. -/
def poly_tomsg (a : Poly) : List Nat :=
  (List.range (KYBER_N / 8)).map fun i =>
    (List.range 8).foldl (fun acc j => acc ||| (tomsg_bit (a.getD (8 * i + j) 0) <<< j)) 0

/-! ## Plain arithmetic and NTT glue -/

/-- Modelled from the spec: the external Barrett reduction primitive from
`reduce.rs` (not part of this crate's sources here), with the contract
`barrett_reduce(x) -> x mod q` stated in §6 of the design document. -/
def barrett_reduce (x : Int) : Int := x % (KYBER_Q : Int)

/-- `poly_reduce`: applies `barrett_reduce` to every coefficient. -/
def poly_reduce (r : Poly) : Poly := r.map barrett_reduce

/-- `poly_add`: `r.coeffs[i] += b.coeffs[i]` for every `i`; the `i16`
addition wraps at 16 bits (no modular reduction is performed). -/
def poly_add (r b : Poly) : Poly :=
  (List.range KYBER_N).map fun i => wrap16 (r.getD i 0 + b.getD i 0)

/-- `poly_sub`: `r.coeffs[i] = a.coeffs[i] - r.coeffs[i]` for every `i`; the
`i16` subtraction wraps at 16 bits (no modular reduction is performed). -/
def poly_sub (r a : Poly) : Poly :=
  (List.range KYBER_N).map fun i => wrap16 (a.getD i 0 - r.getD i 0)

/-- `poly_ntt`: applies the external forward transform (`ntt` from `ntt.rs`,
passed here as a function argument) and then `poly_reduce`. -/
def poly_ntt (nttExt : Poly → Poly) (r : Poly) : Poly := poly_reduce (nttExt r)

/-- `poly_invntt_tomont`: applies the external inverse transform only; no
reduction follows. -/
def poly_invntt_tomont (invnttExt : Poly → Poly) (r : Poly) : Poly := invnttExt r

/-! ## Helper lemmas -/

theorem getD_range_map {α : Type} (f : Nat → α) (n k : Nat) (d : α) (h : k < n) :
    ((List.range n).map f).getD k d = f k := by
  rw [List.getD_eq_getElem _ _ (by simpa using h)]
  simp

theorem lor_eq_add (k a b : Nat) (ha : a % 2 ^ k = 0) (hb : b < 2 ^ k) :
    a ||| b = a + b := by
  obtain ⟨c, rfl⟩ := Nat.dvd_of_mod_eq_zero ha
  exact (Nat.mul_add_lt_is_or hb c).symm

theorem and_255 (x : Nat) : x &&& 255 = x % 256 := by
  have h := Nat.and_pow_two_sub_one_eq_mod x 8
  norm_num at h
  exact h

theorem and_15 (x : Nat) : x &&& 15 = x % 16 := by
  have h := Nat.and_pow_two_sub_one_eq_mod x 4
  norm_num at h
  exact h

theorem and_31 (x : Nat) : x &&& 31 = x % 32 := by
  have h := Nat.and_pow_two_sub_one_eq_mod x 5
  norm_num at h
  exact h

theorem and_4095 (x : Nat) : x &&& 4095 = x % 4096 := by
  have h := Nat.and_pow_two_sub_one_eq_mod x 12
  norm_num at h
  exact h

theorem shiftLeft_1 (x : Nat) : x <<< 1 = x * 2 := by
  rw [Nat.shiftLeft_eq]

theorem shiftLeft_2 (x : Nat) : x <<< 2 = x * 4 := by
  rw [Nat.shiftLeft_eq]

theorem shiftLeft_3 (x : Nat) : x <<< 3 = x * 8 := by
  rw [Nat.shiftLeft_eq]

theorem shiftLeft_4 (x : Nat) : x <<< 4 = x * 16 := by
  rw [Nat.shiftLeft_eq]

theorem shiftLeft_5 (x : Nat) : x <<< 5 = x * 32 := by
  rw [Nat.shiftLeft_eq]

theorem shiftLeft_6 (x : Nat) : x <<< 6 = x * 64 := by
  rw [Nat.shiftLeft_eq]

theorem shiftLeft_7 (x : Nat) : x <<< 7 = x * 128 := by
  rw [Nat.shiftLeft_eq]

theorem shiftLeft_8 (x : Nat) : x <<< 8 = x * 256 := by
  rw [Nat.shiftLeft_eq]

theorem shiftRight_1 (x : Nat) : x >>> 1 = x / 2 := by
  rw [Nat.shiftRight_eq_div_pow]

theorem shiftRight_2 (x : Nat) : x >>> 2 = x / 4 := by
  rw [Nat.shiftRight_eq_div_pow]

theorem shiftRight_3 (x : Nat) : x >>> 3 = x / 8 := by
  rw [Nat.shiftRight_eq_div_pow]

theorem shiftRight_4 (x : Nat) : x >>> 4 = x / 16 := by
  rw [Nat.shiftRight_eq_div_pow]

theorem shiftRight_5 (x : Nat) : x >>> 5 = x / 32 := by
  rw [Nat.shiftRight_eq_div_pow]

theorem shiftRight_6 (x : Nat) : x >>> 6 = x / 64 := by
  rw [Nat.shiftRight_eq_div_pow]

theorem shiftRight_7 (x : Nat) : x >>> 7 = x / 128 := by
  rw [Nat.shiftRight_eq_div_pow]

theorem shiftRight_8 (x : Nat) : x >>> 8 = x / 256 := by
  rw [Nat.shiftRight_eq_div_pow]

/-! ## Claim theorems -/

/-- C5 (counterexample): it is not true that the branchless sign fix-up
maps every coefficient of the lazily-reduced range `(-2q, 2q)` into
`[0, q)`: at the coefficient value `-3330` (inside `(-2q, 2q)`) the fix-up
adds `q` only once and returns `-1`, which is not in `[0, q)`. -/
theorem C5_counterexample :
    (-(2 * (KYBER_Q : Int)) < -3330 ∧ (-3330 : Int) < 2 * (KYBER_Q : Int)) ∧
    ¬ (0 ≤ csubq_fixup (-3330) ∧ csubq_fixup (-3330) < (KYBER_Q : Int)) := by
  decide

/-- C5 (amended): for every coefficient in the range `[-q, q)` the
branchless sign fix-up performed by `poly_tobytes` and `poly_compress`
(`u += (u >> 15) & KYBER_Q`, embedded as `csubq_fixup`) yields a value in
`[0, q)`. -/
theorem C5_fixup_range (u : Int) (h1 : -(KYBER_Q : Int) ≤ u)
    (h2 : u < (KYBER_Q : Int)) :
    0 ≤ csubq_fixup u ∧ csubq_fixup u < (KYBER_Q : Int) := by
  simp only [csubq_fixup, KYBER_Q] at *
  split <;> omega

/-- Witness for C5 (amended) at the concrete coefficient `-1`. -/
theorem C5_fixup_range_witness :
    (-(KYBER_Q : Int) ≤ -1 ∧ (-1 : Int) < KYBER_Q) ∧
    (0 ≤ csubq_fixup (-1) ∧ csubq_fixup (-1) < (KYBER_Q : Int)) :=
  ⟨by decide, C5_fixup_range (-1) (by decide) (by decide)⟩

/-- C6: for every input, `poly_compress` and `poly_decompress` produce an
output exactly when the configured compressed byte width is 128 or 160;
for any other width they halt (the `panic!` arm, embedded as `none`)
before producing output. -/
theorem C6_unsupported_width_panics (w : Nat) (p : Poly) (a : List Nat) :
    ((poly_compress w p).isSome ↔ w = 128 ∨ w = 160) ∧
    ((poly_decompress w a).isSome ↔ w = 128 ∨ w = 160) := by
  constructor
  · unfold poly_compress
    split
    · simp
    · simp
    · rename_i h1 h2
      simp only [Option.isSome_none, Bool.false_eq_true, false_iff]
      rintro (rfl | rfl) <;> simp_all
  · unfold poly_decompress
    split
    · simp
    · simp
    · rename_i h1 h2
      simp only [Option.isSome_none, Bool.false_eq_true, false_iff]
      rintro (rfl | rfl) <;> simp_all

/-- C7: `poly_ntt` is the external forward NTT followed by the full
`poly_reduce` pass, and therefore (under the documented contract
`barrett_reduce(x) = x mod q`, which the embedded `barrett_reduce`
realizes) every coefficient it returns is a canonical residue in `[0, q)`
— for any behaviour of the external transform; by contrast
`poly_invntt_tomont` is exactly the external inverse NTT with no
reduction afterwards. -/
theorem C7_ntt_reduces_invntt_does_not (nttExt invnttExt : Poly → Poly)
    (r : Poly) :
    poly_ntt nttExt r = poly_reduce (nttExt r) ∧
    (∀ c ∈ poly_ntt nttExt r, 0 ≤ c ∧ c < (KYBER_Q : Int)) ∧
    poly_invntt_tomont invnttExt r = invnttExt r := by
  refine ⟨rfl, ?_, rfl⟩
  intro c hc
  simp only [poly_ntt, poly_reduce, List.mem_map] at hc
  obtain ⟨y, -, rfl⟩ := hc
  unfold barrett_reduce
  exact ⟨Int.emod_nonneg y (by norm_num [KYBER_Q]),
    Int.emod_lt_of_pos y (by norm_num [KYBER_Q])⟩

/-- C8: reducing the sum polynomial gives the exact modular sum: for every
index `k < 256`, if `a.coeffs[k] + b.coeffs[k]` stays inside the `i16`
range (the safe input range of the reduction), then
`poly_reduce (poly_add a b)` holds `(a.coeffs[k] + b.coeffs[k]) mod q`
at index `k`. -/
theorem C8_add_then_reduce (a b : Poly) (k : Nat) (hk : k < KYBER_N)
    (hlo : -32768 ≤ a.getD k 0 + b.getD k 0)
    (hhi : a.getD k 0 + b.getD k 0 < 32768) :
    (poly_reduce (poly_add a b)).getD k 0 =
      (a.getD k 0 + b.getD k 0) % (KYBER_Q : Int) := by
  unfold poly_reduce poly_add
  rw [List.map_map, getD_range_map _ _ _ _ hk]
  simp only [Function.comp_apply, barrett_reduce, wrap16, KYBER_Q]
  have hinner : (a.getD k 0 + b.getD k 0 + 32768) % 65536 =
      a.getD k 0 + b.getD k 0 + 32768 := Int.emod_eq_of_lt (by omega) (by omega)
  rw [hinner]
  omega

/-- Witness for C8 at `a = [3000, …]`, `b = [400, …]`, index 0:
`(3000 + 400) mod 3329 = 71`. -/
theorem C8_add_then_reduce_witness :
    (0 < KYBER_N ∧
      -32768 ≤ (List.replicate 256 (3000 : Int)).getD 0 0 +
        (List.replicate 256 (400 : Int)).getD 0 0 ∧
      (List.replicate 256 (3000 : Int)).getD 0 0 +
        (List.replicate 256 (400 : Int)).getD 0 0 < 32768) ∧
    (poly_reduce (poly_add (List.replicate 256 (3000 : Int))
        (List.replicate 256 (400 : Int)))).getD 0 0 =
      ((List.replicate 256 (3000 : Int)).getD 0 0 +
        (List.replicate 256 (400 : Int)).getD 0 0) % (KYBER_Q : Int) :=
  ⟨⟨by decide, by decide, by decide⟩,
    C8_add_then_reduce (List.replicate 256 3000) (List.replicate 256 400) 0
      (by decide) (by decide) (by decide)⟩

/-- C9: `poly_sub(r, a)` stores `a - r` (not `r - a`) into `r`
coefficient-wise and performs no modular reduction: at every index
`k < 256` at which the `i16` difference does not overflow, the result
holds exactly the old `a.coeffs[k]` minus the old `r.coeffs[k]`. -/
theorem C9_sub_order_no_reduction (r a : Poly) (k : Nat) (hk : k < KYBER_N)
    (hlo : -32768 ≤ a.getD k 0 - r.getD k 0)
    (hhi : a.getD k 0 - r.getD k 0 < 32768) :
    (poly_sub r a).getD k 0 = a.getD k 0 - r.getD k 0 := by
  unfold poly_sub
  rw [getD_range_map _ _ _ _ hk]
  simp only [wrap16]
  rw [Int.emod_eq_of_lt (by omega) (by omega)]
  omega

/-- Witness for C9 at `r = [5000, …]`, `a = [2, …]`, index 3:
the stored value is `2 - 5000 = -4998` (no reduction mod q). -/
theorem C9_sub_order_no_reduction_witness :
    (3 < KYBER_N ∧
      -32768 ≤ (List.replicate 256 (2 : Int)).getD 3 0 -
        (List.replicate 256 (5000 : Int)).getD 3 0 ∧
      (List.replicate 256 (2 : Int)).getD 3 0 -
        (List.replicate 256 (5000 : Int)).getD 3 0 < 32768) ∧
    (poly_sub (List.replicate 256 (5000 : Int))
        (List.replicate 256 (2 : Int))).getD 3 0 =
      (List.replicate 256 (2 : Int)).getD 3 0 -
        (List.replicate 256 (5000 : Int)).getD 3 0 :=
  ⟨⟨by decide, by decide, by decide⟩,
    C9_sub_order_no_reduction (List.replicate 256 5000) (List.replicate 256 2) 3
      (by decide) (by decide) (by decide)⟩

/-- The exact quantization the spec asks `poly_compress` to realize:
`round((2^d / q) * x)`, computed as the round-half-up of the rational
`2^d * x / q` (well defined: `q` is odd, so no ties occur). This definition
follows the spec's words, to be compared with the fixed-point computation
of the code. -/
def spec_round_compress (d x : Nat) : Nat :=
  (2 * (2 ^ d * x) + KYBER_Q) / (2 * KYBER_Q)

/-- Balanced-recursion bounded checker: `allBelow p fuel lo n` decides
`p (lo + i)` for every `i < n` by binary splitting, so that its evaluation
has recursion depth logarithmic in `n`. -/
def allBelow (p : Nat → Bool) : Nat → Nat → Nat → Bool
  | 0, lo, n => n == 0 || (n == 1 && p lo)
  | fuel + 1, lo, n =>
    if n ≤ 1 then n == 0 || (n == 1 && p lo)
    else allBelow p fuel lo (n / 2) && allBelow p fuel (lo + n / 2) (n - n / 2)

theorem allBelow_spec (p : Nat → Bool) (fuel lo n : Nat)
    (h : allBelow p fuel lo n = true) : ∀ i, i < n → p (lo + i) = true := by
  induction fuel generalizing lo n with
  | zero =>
    intro i hi
    simp only [allBelow, Bool.or_eq_true, Bool.and_eq_true, beq_iff_eq] at h
    rcases h with h | ⟨h1, h2⟩
    · omega
    · have : i = 0 := by omega
      subst this
      simpa using h2
  | succ fuel ih =>
    intro i hi
    rw [allBelow] at h
    by_cases hn : n ≤ 1
    · rw [if_pos hn] at h
      simp only [Bool.or_eq_true, Bool.and_eq_true, beq_iff_eq] at h
      rcases h with h | ⟨h1, h2⟩
      · omega
      · have : i = 0 := by omega
        subst this
        simpa using h2
    · rw [if_neg hn] at h
      rw [Bool.and_eq_true] at h
      obtain ⟨h1, h2⟩ := h
      rcases Nat.lt_or_ge i (n / 2) with hlt | hge
      · exact ih lo (n / 2) h1 i hlt
      · have h3 := ih (lo + n / 2) (n - n / 2) h2 (i - n / 2) (by omega)
        have h4 : lo + n / 2 + (i - n / 2) = lo + i := by omega
        rwa [h4] at h3

/-- Boolean form of the per-representative statement of C2. -/
def c2check (x : Nat) : Bool :=
  (compress4_coeff (x : Int) == spec_round_compress 4 x % 2 ^ 4) &&
  (compress5_coeff (x : Int) == spec_round_compress 5 x % 2 ^ 5)

theorem c2check_all : allBelow c2check 13 0 KYBER_Q = true := by decide

/-- C2: for every coefficient representative `x` in `[0, q)`, the
fixed-point multiply-and-shift used by `poly_compress` (multiplier 315,
shift 20, masked to `d` bits) agrees with the exact rounded quantization
`round((2^d / q) * x) mod 2^d`, for both `d = 4` (128-byte mode) and
`d = 5` (160-byte mode). -/
theorem C2_compress_fixed_point_exact (x : Nat) (hx : x < KYBER_Q) :
    compress4_coeff (x : Int) = spec_round_compress 4 x % 2 ^ 4 ∧
    compress5_coeff (x : Int) = spec_round_compress 5 x % 2 ^ 5 := by
  have h := allBelow_spec c2check 13 0 KYBER_Q c2check_all x hx
  simp only [c2check, Nat.zero_add, Bool.and_eq_true, beq_iff_eq] at h
  exact h

/-- Witness for C2 at the concrete representative `x = 1000`. -/
theorem C2_compress_fixed_point_exact_witness :
    1000 < KYBER_Q ∧
    (compress4_coeff (1000 : Int) = spec_round_compress 4 1000 % 2 ^ 4 ∧
      compress5_coeff (1000 : Int) = spec_round_compress 5 1000 % 2 ^ 5) :=
  ⟨by decide, C2_compress_fixed_point_exact 1000 (by decide)⟩

/-- Scalar round-trip of the 12-bit serialization: unpacking the three
bytes produced for a coefficient pair recovers both coefficients, for any
pair of values in `[0, 4096)`. -/
theorem serialize_coeff_roundtrip (t0 t1 : Int) (h00 : 0 ≤ t0)
    (h01 : t0 < 4096) (h10 : 0 ≤ t1) (h11 : t1 < 4096) :
    frombytes_coeff (tobytes_byte t0 t1 0) (tobytes_byte t0 t1 1)
        (tobytes_byte t0 t1 2) false = t0 ∧
    frombytes_coeff (tobytes_byte t0 t1 0) (tobytes_byte t0 t1 1)
        (tobytes_byte t0 t1 2) true = t1 := by
  have hb0 : bits16 t0 = t0.toNat := by unfold bits16; omega
  have hb1 : bits16 t1 = t1.toNat := by unfold bits16; omega
  set n0 := t0.toNat with hn0
  set n1 := t1.toNat with hn1
  have hn0r : n0 < 4096 := by omega
  have hn1r : n1 < 4096 := by omega
  simp only [tobytes_byte, frombytes_coeff, hb0, hb1, Bool.false_eq_true,
    if_false, if_true]
  have e0 : n0 &&& 255 = n0 % 256 := and_255 n0
  have e1 : ((n0 >>> 8) &&& 255) ||| ((n1 <<< 4) &&& 255) =
      16 * (n1 % 16) + n0 / 256 := by
    rw [Nat.shiftRight_eq_div_pow, Nat.shiftLeft_eq, and_255, and_255]
    norm_num
    have a1 : n0 / 256 % 256 = n0 / 256 := by omega
    have a2 : n1 * 16 % 256 = 16 * (n1 % 16) := by omega
    rw [a1, a2, Nat.or_comm]
    rw [lor_eq_add 4 (16 * (n1 % 16)) (n0 / 256) (by omega) (by omega)]
  have e2 : (n1 >>> 4) &&& 255 = n1 / 16 := by
    rw [Nat.shiftRight_eq_div_pow, and_255]
    norm_num
    omega
  rw [e0, e1, e2]
  constructor
  · have e3 : ((16 * (n1 % 16) + n0 / 256) <<< 8) &&& 4095 = 256 * (n0 / 256) := by
      rw [Nat.shiftLeft_eq, and_4095]
      norm_num
      omega
    rw [e3, Nat.or_comm, lor_eq_add 8 (256 * (n0 / 256)) (n0 % 256) (by omega) (by omega)]
    have e4 : 256 * (n0 / 256) + n0 % 256 = n0 := by omega
    rw [e4]
    unfold i16cast
    rw [if_pos (by omega)]
    omega
  · have e5 : (16 * (n1 % 16) + n0 / 256) >>> 4 = n1 % 16 := by
      rw [Nat.shiftRight_eq_div_pow]
      norm_num
      omega
    have e6 : ((n1 / 16) <<< 4) &&& 4095 = 16 * (n1 / 16) := by
      rw [Nat.shiftLeft_eq, and_4095]
      norm_num
      omega
    rw [e5, e6, Nat.or_comm, lor_eq_add 4 (16 * (n1 / 16)) (n1 % 16) (by omega) (by omega)]
    have e7 : 16 * (n1 / 16) + n1 % 16 = n1 := by omega
    rw [e7]
    unfold i16cast
    rw [if_pos (by omega)]
    omega

/-- C1: for every polynomial whose 256 coefficients are canonical residues
in `[0, q)`, deserialization inverts serialization exactly:
`poly_frombytes (poly_tobytes p) = p`. -/
theorem C1_serialize_roundtrip (p : Poly) (hlen : p.length = KYBER_N)
    (hc : ∀ c ∈ p, 0 ≤ c ∧ c < (KYBER_Q : Int)) :
    poly_frombytes (poly_tobytes p) = p := by
  have hlen2 : (poly_frombytes (poly_tobytes p)).length = p.length := by
    simp [poly_frombytes, hlen]
  apply List.ext_getElem hlen2
  intro k hk1 hk2
  have hk : k < 256 := by
    rw [hlen] at hk2
    simpa [KYBER_N] using hk2
  have hki : 2 * (k / 2) < p.length ∧ 2 * (k / 2) + 1 < p.length := by
    rw [hlen]; simp only [KYBER_N]; omega
  -- the two coefficients of the pair containing index k, with their bounds
  set t0 := p.getD (2 * (k / 2)) 0 with ht0
  set t1 := p.getD (2 * (k / 2) + 1) 0 with ht1
  have hm0 : t0 ∈ p := by
    rw [ht0, List.getD_eq_getElem p 0 hki.1]
    exact List.getElem_mem hki.1
  have hm1 : t1 ∈ p := by
    rw [ht1, List.getD_eq_getElem p 0 hki.2]
    exact List.getElem_mem hki.2
  have hb0 := hc t0 hm0
  have hb1 := hc t1 hm1
  have hq : (KYBER_Q : Int) = 3329 := by norm_num [KYBER_Q]
  -- the sign fix-up is the identity on canonical coefficients
  have hfix0 : csubq_fixup t0 = t0 := by
    unfold csubq_fixup
    rw [if_neg (by omega)]
    omega
  have hfix1 : csubq_fixup t1 = t1 := by
    unfold csubq_fixup
    rw [if_neg (by omega)]
    omega
  -- the three bytes that coefficient k is rebuilt from
  have hlen384 : 3 * (KYBER_N / 2) = 384 := by norm_num [KYBER_N]
  have hbyte : ∀ j, j < 3 → (poly_tobytes p).getD (3 * (k / 2) + j) 0 =
      tobytes_byte (csubq_fixup (p.getD (2 * ((3 * (k / 2) + j) / 3)) 0))
        (csubq_fixup (p.getD (2 * ((3 * (k / 2) + j) / 3) + 1) 0))
        ((3 * (k / 2) + j) % 3) := by
    intro j hj
    unfold poly_tobytes
    exact getD_range_map _ _ _ _ (by omega)
  have hj0 := hbyte 0 (by omega)
  have hj1 := hbyte 1 (by omega)
  have hj2 := hbyte 2 (by omega)
  have hd0 : (3 * (k / 2) + 0) / 3 = k / 2 := by omega
  have hd1 : (3 * (k / 2) + 1) / 3 = k / 2 := by omega
  have hd2 : (3 * (k / 2) + 2) / 3 = k / 2 := by omega
  have hr0 : (3 * (k / 2) + 0) % 3 = 0 := by omega
  have hr1 : (3 * (k / 2) + 1) % 3 = 1 := by omega
  have hr2 : (3 * (k / 2) + 2) % 3 = 2 := by omega
  rw [hd0, hr0] at hj0
  rw [hd1, hr1] at hj1
  rw [hd2, hr2] at hj2
  have hrt := serialize_coeff_roundtrip t0 t1 (by omega) (by omega) (by omega) (by omega)
  -- unfold the deserialization at index k
  unfold poly_frombytes
  simp only [List.getElem_map, List.getElem_range]
  simp only [Nat.add_zero] at hj0
  rw [hj0, hj1, hj2, ← ht0, ← ht1, hfix0, hfix1]
  rcases Nat.mod_two_eq_zero_or_one k with hpar | hpar
  · have hb : (k % 2 == 1) = false := by rw [hpar]; rfl
    have hkk : 2 * (k / 2) = k := by omega
    rw [hb, hrt.1, ht0, hkk]
    exact List.getD_eq_getElem p 0 hk2
  · have hb : (k % 2 == 1) = true := by rw [hpar]; rfl
    have hkk : 2 * (k / 2) + 1 = k := by omega
    rw [hb, hrt.2, ht1, hkk]
    exact List.getD_eq_getElem p 0 hk2

/-- Witness for C1 at the constant canonical polynomial `[1234, …]`. -/
theorem C1_serialize_roundtrip_witness :
    ((List.replicate 256 (1234 : Int)).length = KYBER_N ∧
      ∀ c ∈ List.replicate 256 (1234 : Int), 0 ≤ c ∧ c < (KYBER_Q : Int)) ∧
    poly_frombytes (poly_tobytes (List.replicate 256 (1234 : Int))) =
      List.replicate 256 (1234 : Int) :=
  ⟨⟨by norm_num [KYBER_N], fun c hcm => by
      rw [List.eq_of_mem_replicate hcm]; norm_num [KYBER_Q]⟩,
    C1_serialize_roundtrip (List.replicate 256 1234) (by norm_num [KYBER_N])
      (fun c hcm => by rw [List.eq_of_mem_replicate hcm]; norm_num [KYBER_Q])⟩

/-- Range of one decompressed 4-bit coefficient: for a nibble `c < 16` the
result is between 0 and `(15 * q + 8) >> 4 = 3121`. -/
theorem decompress4_coeff_range (c : Nat) (hc : c < 16) :
    0 ≤ decompress4_coeff c ∧ decompress4_coeff c ≤ 3121 := by
  unfold decompress4_coeff
  rw [shiftRight_4]
  simp only [KYBER_Q]
  unfold i16cast
  have hsm : (c * 3329 + 8) / 16 % 65536 = (c * 3329 + 8) / 16 := by omega
  rw [hsm, if_pos (by omega)]
  refine ⟨Int.ofNat_nonneg _, ?_⟩
  have h : (c * 3329 + 8) / 16 ≤ 3121 := by omega
  exact_mod_cast h

/-- Range of one decompressed 5-bit coefficient: for any field value the
result is between 0 and `(31 * q + 16) >> 5 = 3225` (the field is masked
with 31 first). -/
theorem decompress5_coeff_range (t : Nat) :
    0 ≤ decompress5_coeff t ∧ decompress5_coeff t ≤ 3225 := by
  unfold decompress5_coeff
  rw [and_31, shiftRight_5]
  simp only [KYBER_Q]
  unfold i16cast
  have hsm : (t % 32 * 3329 + 16) / 32 % 65536 = (t % 32 * 3329 + 16) / 32 := by
    omega
  rw [hsm, if_pos (by omega)]
  refine ⟨Int.ofNat_nonneg _, ?_⟩
  have h : (t % 32 * 3329 + 16) / 32 ≤ 3225 := by omega
  exact_mod_cast h

/-- C10: for byte buffers (entries below 256) and both supported widths,
every coefficient produced by `poly_decompress` is a canonical residue in
`[0, q)`: it is at most `(15*q + 8) >> 4 = 3121` in 4-bit mode and
`(31*q + 16) >> 5 = 3225` in 5-bit mode, both below `q = 3329`, and both
maxima are produced on the all-`0xFF` buffer. -/
theorem C10_decompress_canonical (a : List Nat) (ha : ∀ b ∈ a, b < 256)
    (r4 r5 : Poly) (h4 : poly_decompress 128 a = some r4)
    (h5 : poly_decompress 160 a = some r5) :
    (∀ c ∈ r4, 0 ≤ c ∧ c ≤ 3121) ∧ (∀ c ∈ r5, 0 ≤ c ∧ c ≤ 3225) ∧
    ((3121 : Int) < (KYBER_Q : Int) ∧ (3225 : Int) < (KYBER_Q : Int)) ∧
    poly_decompress 128 (List.replicate 128 255) =
      some (List.replicate 256 (3121 : Int)) ∧
    poly_decompress 160 (List.replicate 160 255) =
      some (List.replicate 256 (3225 : Int)) := by
  have hbyte : ∀ idx, a.getD idx 0 < 256 := by
    intro idx
    rcases Nat.lt_or_ge idx a.length with h | h
    · rw [List.getD_eq_getElem a 0 h]
      exact ha _ (List.getElem_mem h)
    · rw [List.getD_eq_default a 0 h]
      omega
  simp only [poly_decompress, Option.some.injEq] at h4 h5
  subst h4
  subst h5
  refine ⟨?_, ?_, by norm_num [KYBER_Q], ?_, ?_⟩
  · intro c hcm
    rw [List.mem_map] at hcm
    obtain ⟨k, -, rfl⟩ := hcm
    rcases hbool : (k % 2 == 0) with h | h
    · rw [if_neg Bool.false_ne_true]
      refine decompress4_coeff_range _ ?_
      rw [shiftRight_4]
      have := hbyte (k / 2)
      omega
    · rw [if_pos rfl]
      refine decompress4_coeff_range _ ?_
      rw [and_15]
      omega
  · intro c hcm
    rw [List.mem_map] at hcm
    obtain ⟨k, -, rfl⟩ := hcm
    exact decompress5_coeff_range _
  · apply congrArg some
    have hmem : ∀ c ∈ (List.range KYBER_N).map (fun k =>
        if k % 2 == 0 then
          decompress4_coeff ((List.replicate 128 (255 : Nat)).getD (k / 2) 0 &&& 15)
        else decompress4_coeff ((List.replicate 128 (255 : Nat)).getD (k / 2) 0 >>> 4)),
        c = (3121 : Int) := by
      intro c hcm
      rw [List.mem_map] at hcm
      obtain ⟨k, hk, rfl⟩ := hcm
      rw [List.mem_range] at hk
      simp only [KYBER_N] at hk
      have hrep : (List.replicate 128 (255 : Nat)).getD (k / 2) 0 = 255 := by
        rw [List.getD_eq_getElem _ 0 (by simp only [List.length_replicate]; omega)]
        exact List.getElem_replicate _ _
      rcases hbool : (k % 2 == 0) with h | h
      · rw [if_neg Bool.false_ne_true, hrep]
        decide
      · rw [if_pos rfl, hrep]
        decide
    rw [List.eq_replicate_of_mem hmem]
    simp only [List.length_map, List.length_range, KYBER_N]
  · apply congrArg some
    have hmem : ∀ c ∈ (List.range KYBER_N).map (fun k =>
        decompress5_coeff
          (unpack160_field ((List.replicate 160 (255 : Nat)).getD (5 * (k / 8)) 0)
            ((List.replicate 160 (255 : Nat)).getD (5 * (k / 8) + 1) 0)
            ((List.replicate 160 (255 : Nat)).getD (5 * (k / 8) + 2) 0)
            ((List.replicate 160 (255 : Nat)).getD (5 * (k / 8) + 3) 0)
            ((List.replicate 160 (255 : Nat)).getD (5 * (k / 8) + 4) 0) (k % 8))),
        c = (3225 : Int) := by
      intro c hcm
      rw [List.mem_map] at hcm
      obtain ⟨k, hk, rfl⟩ := hcm
      rw [List.mem_range] at hk
      simp only [KYBER_N] at hk
      have hrep : ∀ j, j < 5 →
          (List.replicate 160 (255 : Nat)).getD (5 * (k / 8) + j) 0 = 255 := by
        intro j hj
        rw [List.getD_eq_getElem _ 0 (by simp only [List.length_replicate]; omega)]
        exact List.getElem_replicate _ _
      have hrep0 : (List.replicate 160 (255 : Nat)).getD (5 * (k / 8)) 0 = 255 := by
        rw [List.getD_eq_getElem _ 0 (by simp only [List.length_replicate]; omega)]
        exact List.getElem_replicate _ _
      rw [hrep0, hrep 1 (by omega), hrep 2 (by omega),
        hrep 3 (by omega), hrep 4 (by omega)]
      have h8 : k % 8 = 0 ∨ k % 8 = 1 ∨ k % 8 = 2 ∨ k % 8 = 3 ∨ k % 8 = 4 ∨
          k % 8 = 5 ∨ k % 8 = 6 ∨ k % 8 = 7 := by omega
      rcases h8 with h | h | h | h | h | h | h | h <;> rw [h] <;> decide
    rw [List.eq_replicate_of_mem hmem]
    simp only [List.length_map, List.length_range, KYBER_N]

/-- Witness for C10 on the all-`0xFF` buffer. -/
theorem C10_decompress_canonical_witness :
    (∀ b ∈ List.replicate 160 (255 : Nat), b < 256) ∧
    ((∀ c ∈ (poly_decompress 128 (List.replicate 160 (255 : Nat))).getD [],
        0 ≤ c ∧ c ≤ 3121) ∧
      (∀ c ∈ (poly_decompress 160 (List.replicate 160 (255 : Nat))).getD [],
        0 ≤ c ∧ c ≤ 3225)) := by
  have ha : ∀ b ∈ List.replicate 160 (255 : Nat), b < 256 := fun b hb => by
    rw [List.eq_of_mem_replicate hb]; omega
  have h4 : poly_decompress 128 (List.replicate 160 (255 : Nat)) =
      some ((List.range KYBER_N).map fun k =>
        if k % 2 == 0 then
          decompress4_coeff ((List.replicate 160 (255 : Nat)).getD (k / 2) 0 &&& 15)
        else decompress4_coeff ((List.replicate 160 (255 : Nat)).getD (k / 2) 0 >>> 4)) :=
    rfl
  have h5 : poly_decompress 160 (List.replicate 160 (255 : Nat)) =
      some ((List.range KYBER_N).map fun k =>
        decompress5_coeff
          (unpack160_field ((List.replicate 160 (255 : Nat)).getD (5 * (k / 8)) 0)
            ((List.replicate 160 (255 : Nat)).getD (5 * (k / 8) + 1) 0)
            ((List.replicate 160 (255 : Nat)).getD (5 * (k / 8) + 2) 0)
            ((List.replicate 160 (255 : Nat)).getD (5 * (k / 8) + 3) 0)
            ((List.replicate 160 (255 : Nat)).getD (5 * (k / 8) + 4) 0) (k % 8))) :=
    rfl
  have h := C10_decompress_canonical (List.replicate 160 255) ha _ _ h4 h5
  rw [h4, h5]
  exact ⟨ha, h.1, h.2.1⟩

theorem distq_self (a : Int) : distq a a = 0 := by
  unfold distq
  simp

/-- The branchless bit-to-mask expansion of `poly_frommsg` produces 1665
(`= (q+1)/2`) for a set message bit and 0 for a clear one. -/
theorem frommsg_coeff_eq (b j : Nat) :
    frommsg_coeff b j = if (b >>> j) &&& 1 = 1 then 1665 else 0 := by
  unfold frommsg_coeff
  have hble : (b >>> j) &&& 1 ≤ 1 := Nat.and_le_right
  rcases Nat.le_one_iff_eq_zero_or_eq_one.mp hble with h | h <;> rw [h] <;> decide

/-- Boolean form of the per-coefficient nearest-neighbor decode of C4: a
canonical coefficient within distance 831 of symbol 0 decodes to bit 0,
within distance 831 of symbol 1665 to bit 1. -/
def c4check (c : Nat) : Bool :=
  (!(decide (distq (c : Int) 0 ≤ 831)) || (tomsg_bit (c : Int) == 0)) &&
  (!(decide (distq (c : Int) 1665 ≤ 831)) || (tomsg_bit (c : Int) == 1))

theorem c4check_all : allBelow c4check 13 0 KYBER_Q = true := by decide

theorem tomsg_bit_decode (c : Nat) (hc : c < KYBER_Q) :
    (distq (c : Int) 0 ≤ 831 → tomsg_bit (c : Int) = 0) ∧
    (distq (c : Int) 1665 ≤ 831 → tomsg_bit (c : Int) = 1) := by
  have h := allBelow_spec c4check 13 0 KYBER_Q c4check_all c hc
  simp only [c4check, Nat.zero_add, Bool.and_eq_true, Bool.or_eq_true,
    Bool.not_eq_true', decide_eq_false_iff_not, beq_iff_eq] at h
  constructor
  · intro hd
    rcases h.1 with h1 | h1
    · exact absurd hd h1
    · exact h1
  · intro hd
    rcases h.2 with h1 | h1
    · exact absurd hd h1
    · exact h1

/-- Boolean form of the byte-reconstruction identity used by C4. -/
def c4byte (m : Nat) : Bool :=
  (List.range 8).foldl (fun acc j => acc ||| (((m >>> j) &&& 1) <<< j)) 0 == m

theorem c4byte_all : allBelow c4byte 9 0 256 = true := by decide

theorem byte_from_bits (m : Nat) (hm : m < 256) :
    (List.range 8).foldl (fun acc j => acc ||| (((m >>> j) &&& 1) <<< j)) 0 = m := by
  have h := allBelow_spec c4byte 9 0 256 c4byte_all m hm
  simpa [c4byte] using h

/-- C4: for every 32-byte message `m`, and every polynomial whose
coefficients are canonical residues within centered distance
`⌊q/4⌋ − 1 = 831` (mod q) of the corresponding coefficient of
`poly_frommsg m`, `poly_tomsg` recovers `m` exactly; in particular (zero
perturbation, witness below) `poly_tomsg (poly_frommsg m) = m`. -/
theorem C4_message_roundtrip (msg : List Nat) (hml : msg.length = 32)
    (hmb : ∀ b ∈ msg, b < 256) (p : Poly)
    (hp : ∀ k, k < KYBER_N → 0 ≤ p.getD k 0 ∧ p.getD k 0 < (KYBER_Q : Int) ∧
      distq (p.getD k 0) ((poly_frommsg msg).getD k 0) ≤ 831) :
    poly_tomsg p = msg := by
  apply List.ext_getElem
  · simp [poly_tomsg, hml, KYBER_N]
  intro i hi1 hi2
  have hi : i < 32 := by rw [hml] at hi2; exact hi2
  set m := msg.getD i 0 with hm
  have hm256 : m < 256 := by
    rw [hm, List.getD_eq_getElem msg 0 (by omega)]
    exact hmb _ (List.getElem_mem _)
  unfold poly_tomsg
  simp only [List.getElem_map, List.getElem_range]
  have hbit : ∀ j, j < 8 → tomsg_bit (p.getD (8 * i + j) 0) = (m >>> j) &&& 1 := by
    intro j hj
    have hk : 8 * i + j < KYBER_N := by simp only [KYBER_N]; omega
    obtain ⟨h0, h1, hd⟩ := hp (8 * i + j) hk
    have hfm : (poly_frommsg msg).getD (8 * i + j) 0 = frommsg_coeff m j := by
      unfold poly_frommsg
      rw [getD_range_map _ _ _ _ hk]
      rw [hm]
      have e1 : (8 * i + j) / 8 = i := by omega
      have e2 : (8 * i + j) % 8 = j := by omega
      rw [e1, e2]
    rw [hfm, frommsg_coeff_eq] at hd
    have hble : (m >>> j) &&& 1 ≤ 1 := Nat.and_le_right
    have hc : p.getD (8 * i + j) 0 = ((p.getD (8 * i + j) 0).toNat : Int) := by omega
    have hcq : (p.getD (8 * i + j) 0).toNat < KYBER_Q := by
      simp only [KYBER_Q] at h1 ⊢
      omega
    have hdec := tomsg_bit_decode (p.getD (8 * i + j) 0).toNat hcq
    rcases Nat.le_one_iff_eq_zero_or_eq_one.mp hble with hb | hb
    · rw [hb] at hd ⊢
      rw [if_neg (by norm_num)] at hd
      rw [hc]
      exact hdec.1 (by rw [← hc]; exact hd)
    · rw [hb] at hd ⊢
      rw [if_pos rfl] at hd
      rw [hc]
      exact hdec.2 (by rw [← hc]; exact hd)
  have hr8 : List.range 8 = [0, 1, 2, 3, 4, 5, 6, 7] := rfl
  rw [hr8]
  simp only [List.foldl_cons, List.foldl_nil]
  rw [hbit 0 (by omega), hbit 1 (by omega), hbit 2 (by omega), hbit 3 (by omega),
    hbit 4 (by omega), hbit 5 (by omega), hbit 6 (by omega), hbit 7 (by omega)]
  have hb := byte_from_bits m hm256
  rw [hr8] at hb
  simp only [List.foldl_cons, List.foldl_nil] at hb
  rw [hb, hm]
  exact List.getD_eq_getElem msg 0 (by omega)

/-- Witness for C4 at the message `[0xA5, …]` with zero perturbation. -/
theorem C4_message_roundtrip_witness :
    ((List.replicate 32 (165 : Nat)).length = 32 ∧
      (∀ b ∈ List.replicate 32 (165 : Nat), b < 256) ∧
      (∀ k, k < KYBER_N →
        0 ≤ (poly_frommsg (List.replicate 32 165)).getD k 0 ∧
        (poly_frommsg (List.replicate 32 165)).getD k 0 < (KYBER_Q : Int) ∧
        distq ((poly_frommsg (List.replicate 32 165)).getD k 0)
          ((poly_frommsg (List.replicate 32 165)).getD k 0) ≤ 831)) ∧
    poly_tomsg (poly_frommsg (List.replicate 32 165)) = List.replicate 32 165 := by
  have hml : (List.replicate 32 (165 : Nat)).length = 32 := by simp
  have hmb : ∀ b ∈ List.replicate 32 (165 : Nat), b < 256 := fun b hb => by
    rw [List.eq_of_mem_replicate hb]; omega
  have hrange : ∀ k, k < KYBER_N →
      0 ≤ (poly_frommsg (List.replicate 32 165)).getD k 0 ∧
      (poly_frommsg (List.replicate 32 165)).getD k 0 < (KYBER_Q : Int) ∧
      distq ((poly_frommsg (List.replicate 32 165)).getD k 0)
        ((poly_frommsg (List.replicate 32 165)).getD k 0) ≤ 831 := by
    intro k hk
    have hv : (poly_frommsg (List.replicate 32 165)).getD k 0 =
        frommsg_coeff ((List.replicate 32 (165 : Nat)).getD (k / 8) 0) (k % 8) := by
      unfold poly_frommsg
      rw [getD_range_map _ _ _ _ hk]
    rw [hv, frommsg_coeff_eq, distq_self]
    split <;> norm_num [KYBER_Q]
  exact ⟨⟨hml, hmb, hrange⟩,
    C4_message_roundtrip (List.replicate 32 165) hml hmb
      (poly_frommsg (List.replicate 32 165)) hrange⟩

/-! ## C3: compression error bound -/

theorem compress4_coeff_lt (x : Int) : compress4_coeff x < 16 := by
  have h := and_15 ((((((bits16 (csubq_fixup x) <<< 4) % 65536 + KYBER_Q / 2) % 65536)
    * 315) % 4294967296) >>> 20)
  show ((((((bits16 (csubq_fixup x) <<< 4) % 65536 + KYBER_Q / 2) % 65536)
    * 315) % 4294967296) >>> 20) &&& 15 < 16
  omega

theorem compress5_coeff_lt (x : Int) : compress5_coeff x < 32 := by
  have h := and_31 ((((((bits32 (csubq_fixup x) <<< 5) % 4294967296 + KYBER_Q / 2)
    % 4294967296) * 315) % 4294967296) >>> 20)
  show ((((((bits32 (csubq_fixup x) <<< 5) % 4294967296 + KYBER_Q / 2)
    % 4294967296) * 315) % 4294967296) >>> 20) &&& 31 < 32
  omega

/-- The compressed value depends on the input only through the fixed-up
representative. -/
theorem compress4_coeff_congr (x y : Int) (h : csubq_fixup x = csubq_fixup y) :
    compress4_coeff x = compress4_coeff y := by
  unfold compress4_coeff
  rw [h]

theorem compress5_coeff_congr (x y : Int) (h : csubq_fixup x = csubq_fixup y) :
    compress5_coeff x = compress5_coeff y := by
  unfold compress5_coeff
  rw [h]

/-- On the range `[-q, q)` the sign fix-up computes the positive standard
representative. -/
theorem csubq_fixup_eq_canonical (x : Int) (h1 : -(KYBER_Q : Int) ≤ x)
    (h2 : x < (KYBER_Q : Int)) : csubq_fixup x = canonicalize x := by
  unfold csubq_fixup canonicalize
  simp only [KYBER_Q] at *
  split <;> omega

theorem csubq_fixup_cast (c : Nat) : csubq_fixup ((c : Nat) : Int) = c := by
  unfold csubq_fixup
  rw [if_neg (by omega)]
  omega

/-- Boolean form of the per-representative quantization error bound of C3. -/
def c3check (c : Nat) : Bool :=
  decide (distq (decompress4_coeff (compress4_coeff (c : Int))) (c : Int) ≤ 105) &&
  decide (distq (decompress5_coeff (compress5_coeff (c : Int))) (c : Int) ≤ 53)

theorem c3check_all : allBelow c3check 13 0 KYBER_Q = true := by decide

theorem compress_roundtrip_error (c : Nat) (hc : c < KYBER_Q) :
    distq (decompress4_coeff (compress4_coeff (c : Int))) (c : Int) ≤ 105 ∧
    distq (decompress5_coeff (compress5_coeff (c : Int))) (c : Int) ≤ 53 := by
  have h := allBelow_spec c3check 13 0 KYBER_Q c3check_all c hc
  simpa [c3check] using h

/-- The nibble packing of the 128-byte mode is invertible: masking/shifting
the packed byte recovers both 4-bit fields. -/
theorem pack128_byte_unpack (t : Nat → Nat) (h : ∀ j, t j < 16) (m : Nat) :
    pack128_byte t m &&& 15 = t (2 * m) ∧ pack128_byte t m >>> 4 = t (2 * m + 1) := by
  have hlo := h (2 * m)
  have hhi := h (2 * m + 1)
  unfold pack128_byte
  rw [shiftLeft_4, and_15, shiftRight_4]
  have e : t (2 * m + 1) * 16 % 256 = t (2 * m + 1) * 16 := by omega
  rw [e, Nat.or_comm]
  rw [lor_eq_add 4 (t (2 * m + 1) * 16) (t (2 * m)) (by omega) (by omega)]
  omega

/-- The 5-bit packing of the 160-byte mode is invertible: the eight fields
recovered by `poly_decompress` from the five packed bytes (masked with 31)
are the original 5-bit values. -/
theorem pack160_byte_unpack (t : Nat → Nat) (h : ∀ j, t j < 32) :
    ∀ j, j < 8 →
      unpack160_field (pack160_byte t 0) (pack160_byte t 1) (pack160_byte t 2)
        (pack160_byte t 3) (pack160_byte t 4) j &&& 31 = t j := by
  have h0 := h 0
  have h1 := h 1
  have h2 := h 2
  have h3 := h 3
  have h4 := h 4
  have h5 := h 5
  have h6 := h 6
  have h7 := h 7
  have hb0 : pack160_byte t 0 = t 1 % 8 * 32 + t 0 := by
    show (t 0 ||| ((t 1 <<< 5) % 256)) = _
    rw [shiftLeft_5]
    have e : t 1 * 32 % 256 = t 1 % 8 * 32 := by omega
    rw [e, Nat.or_comm]
    exact lor_eq_add 5 (t 1 % 8 * 32) (t 0) (by omega) (by omega)
  have hb1 : pack160_byte t 1 = t 3 % 2 * 128 + (t 2 * 4 + t 1 / 8) := by
    show ((t 1 >>> 3) ||| ((t 2 <<< 2) % 256) ||| ((t 3 <<< 7) % 256)) = _
    rw [shiftRight_3, shiftLeft_2, shiftLeft_7]
    have e2 : t 2 * 4 % 256 = t 2 * 4 := by omega
    have e3 : t 3 * 128 % 256 = t 3 % 2 * 128 := by omega
    rw [e2, e3, Nat.or_comm (t 1 / 8) (t 2 * 4)]
    rw [lor_eq_add 2 (t 2 * 4) (t 1 / 8) (by omega) (by omega), Nat.or_comm]
    exact lor_eq_add 7 (t 3 % 2 * 128) (t 2 * 4 + t 1 / 8) (by omega) (by omega)
  have hb2 : pack160_byte t 2 = t 4 % 16 * 16 + t 3 / 2 := by
    show ((t 3 >>> 1) ||| ((t 4 <<< 4) % 256)) = _
    rw [shiftRight_1, shiftLeft_4]
    have e : t 4 * 16 % 256 = t 4 % 16 * 16 := by omega
    rw [e, Nat.or_comm]
    exact lor_eq_add 4 (t 4 % 16 * 16) (t 3 / 2) (by omega) (by omega)
  have hb3 : pack160_byte t 3 = t 6 % 4 * 64 + (t 5 * 2 + t 4 / 16) := by
    show ((t 4 >>> 4) ||| ((t 5 <<< 1) % 256) ||| ((t 6 <<< 6) % 256)) = _
    rw [shiftRight_4, shiftLeft_1, shiftLeft_6]
    have e5 : t 5 * 2 % 256 = t 5 * 2 := by omega
    have e6 : t 6 * 64 % 256 = t 6 % 4 * 64 := by omega
    rw [e5, e6, Nat.or_comm (t 4 / 16) (t 5 * 2)]
    rw [lor_eq_add 1 (t 5 * 2) (t 4 / 16) (by omega) (by omega), Nat.or_comm]
    exact lor_eq_add 6 (t 6 % 4 * 64) (t 5 * 2 + t 4 / 16) (by omega) (by omega)
  have hb4 : pack160_byte t 4 = t 7 * 8 + t 6 / 4 := by
    show ((t 6 >>> 2) ||| ((t 7 <<< 3) % 256)) = _
    rw [shiftRight_2, shiftLeft_3]
    have e : t 7 * 8 % 256 = t 7 * 8 := by omega
    rw [e, Nat.or_comm]
    exact lor_eq_add 3 (t 7 * 8) (t 6 / 4) (by omega) (by omega)
  intro j hj
  have hcases : j = 0 ∨ j = 1 ∨ j = 2 ∨ j = 3 ∨ j = 4 ∨ j = 5 ∨ j = 6 ∨ j = 7 := by
    omega
  rcases hcases with rfl | rfl | rfl | rfl | rfl | rfl | rfl | rfl
  · show pack160_byte t 0 &&& 31 = t 0
    rw [and_31, hb0]
    omega
  · show ((pack160_byte t 0 >>> 5) ||| ((pack160_byte t 1 <<< 3) % 256)) &&& 31 = t 1
    rw [shiftRight_5, shiftLeft_3, and_31, hb0, hb1]
    have e : (t 3 % 2 * 128 + (t 2 * 4 + t 1 / 8)) * 8 % 256 =
        (t 2 % 8 * 4 + t 1 / 8) * 8 := by omega
    rw [e]
    have hor : ((t 1 % 8 * 32 + t 0) / 32) ||| ((t 2 % 8 * 4 + t 1 / 8) * 8) =
        (t 2 % 8 * 4 + t 1 / 8) * 8 + (t 1 % 8 * 32 + t 0) / 32 := by
      rw [Nat.or_comm]
      exact lor_eq_add 3 _ _ (by omega) (by omega)
    rw [hor]
    omega
  · show (pack160_byte t 1 >>> 2) &&& 31 = t 2
    rw [shiftRight_2, and_31, hb1]
    omega
  · show ((pack160_byte t 1 >>> 7) ||| ((pack160_byte t 2 <<< 1) % 256)) &&& 31 = t 3
    rw [shiftRight_7, shiftLeft_1, and_31, hb1, hb2]
    have e : (t 4 % 16 * 16 + t 3 / 2) * 2 % 256 = (t 4 % 8 * 16 + t 3 / 2) * 2 := by
      omega
    rw [e]
    have hor : ((t 3 % 2 * 128 + (t 2 * 4 + t 1 / 8)) / 128) |||
        ((t 4 % 8 * 16 + t 3 / 2) * 2) =
        (t 4 % 8 * 16 + t 3 / 2) * 2 + (t 3 % 2 * 128 + (t 2 * 4 + t 1 / 8)) / 128 := by
      rw [Nat.or_comm]
      exact lor_eq_add 1 _ _ (by omega) (by omega)
    rw [hor]
    omega
  · show ((pack160_byte t 2 >>> 4) ||| ((pack160_byte t 3 <<< 4) % 256)) &&& 31 = t 4
    rw [shiftRight_4, shiftLeft_4, and_31, hb2, hb3]
    have e : (t 6 % 4 * 64 + (t 5 * 2 + t 4 / 16)) * 16 % 256 =
        (t 5 % 8 * 2 + t 4 / 16) * 16 := by omega
    rw [e]
    have hor : ((t 4 % 16 * 16 + t 3 / 2) / 16) ||| ((t 5 % 8 * 2 + t 4 / 16) * 16) =
        (t 5 % 8 * 2 + t 4 / 16) * 16 + (t 4 % 16 * 16 + t 3 / 2) / 16 := by
      rw [Nat.or_comm]
      exact lor_eq_add 4 _ _ (by omega) (by omega)
    rw [hor]
    omega
  · show (pack160_byte t 3 >>> 1) &&& 31 = t 5
    rw [shiftRight_1, and_31, hb3]
    omega
  · show ((pack160_byte t 3 >>> 6) ||| ((pack160_byte t 4 <<< 2) % 256)) &&& 31 = t 6
    rw [shiftRight_6, shiftLeft_2, and_31, hb3, hb4]
    have e : (t 7 * 8 + t 6 / 4) * 4 % 256 = (t 7 % 8 * 8 + t 6 / 4) * 4 := by omega
    rw [e]
    have hor : ((t 6 % 4 * 64 + (t 5 * 2 + t 4 / 16)) / 64) |||
        ((t 7 % 8 * 8 + t 6 / 4) * 4) =
        (t 7 % 8 * 8 + t 6 / 4) * 4 + (t 6 % 4 * 64 + (t 5 * 2 + t 4 / 16)) / 64 := by
      rw [Nat.or_comm]
      exact lor_eq_add 2 _ _ (by omega) (by omega)
    rw [hor]
    omega
  · show (pack160_byte t 4 >>> 3) &&& 31 = t 7
    rw [shiftRight_3, and_31, hb4]
    omega

theorem decompress5_coeff_congr (a b : Nat) (h : a &&& 31 = b &&& 31) :
    decompress5_coeff a = decompress5_coeff b := by
  unfold decompress5_coeff
  rw [h]

/-- C3: for every polynomial with coefficients in the lazily-reduced range
`[-q, q)` accepted by the compression fix-up, and for both supported
widths, every coefficient of `poly_decompress (poly_compress p)` is within
centered distance `⌈q/2^(d+1)⌉` (105 for `d = 4`, 53 for `d = 5`) of the
canonical representative of the corresponding coefficient of `p`. -/
theorem C3_compression_error_bound (p : Poly)
    (hc : ∀ c ∈ p, -(KYBER_Q : Int) ≤ c ∧ c < (KYBER_Q : Int))
    (b4 b5 : List Nat) (r4 r5 : Poly)
    (h4c : poly_compress 128 p = some b4) (h4d : poly_decompress 128 b4 = some r4)
    (h5c : poly_compress 160 p = some b5) (h5d : poly_decompress 160 b5 = some r5)
    (k : Nat) (hk : k < KYBER_N) :
    distq (r4.getD k 0) (canonicalize (p.getD k 0)) ≤ 105 ∧
    distq (r5.getD k 0) (canonicalize (p.getD k 0)) ≤ 53 := by
  have hk256 : k < 256 := by simpa [KYBER_N] using hk
  have hcoeff : ∀ idx, -(KYBER_Q : Int) ≤ p.getD idx 0 ∧
      p.getD idx 0 < (KYBER_Q : Int) := by
    intro idx
    rcases Nat.lt_or_ge idx p.length with h | h
    · rw [List.getD_eq_getElem p 0 h]
      exact hc _ (List.getElem_mem h)
    · rw [List.getD_eq_default p 0 h]
      norm_num [KYBER_Q]
  obtain ⟨hx1, hx2⟩ := hcoeff k
  have hq0 : (0 : Int) < (KYBER_Q : Int) := by norm_num [KYBER_Q]
  have hcanon_nonneg : 0 ≤ canonicalize (p.getD k 0) :=
    Int.emod_nonneg _ (by norm_num [KYBER_Q])
  have hcanon_lt : canonicalize (p.getD k 0) < (KYBER_Q : Int) :=
    Int.emod_lt_of_pos _ hq0
  have hccast : (((canonicalize (p.getD k 0)).toNat : Nat) : Int) =
      canonicalize (p.getD k 0) := Int.toNat_of_nonneg hcanon_nonneg
  have hcq : (canonicalize (p.getD k 0)).toNat < KYBER_Q := by
    simp only [KYBER_Q] at hcanon_lt ⊢
    omega
  have hfix : csubq_fixup (p.getD k 0) =
      csubq_fixup ((((canonicalize (p.getD k 0)).toNat : Nat) : Int)) := by
    rw [csubq_fixup_cast, hccast, csubq_fixup_eq_canonical _ hx1 hx2]
  have herr := compress_roundtrip_error _ hcq
  simp only [poly_compress, Option.some.injEq] at h4c h5c
  simp only [poly_decompress, Option.some.injEq] at h4d h5d
  subst h4c
  subst h4d
  subst h5c
  subst h5d
  constructor
  · -- 128-byte mode
    rw [getD_range_map _ _ _ _ hk]
    have hbyteval : ((List.range 128).map fun kb =>
        pack128_byte (fun j => compress4_coeff (p.getD (8 * (kb / 4) + j) 0))
          (kb % 4)).getD (k / 2) 0 =
        pack128_byte (fun j => compress4_coeff (p.getD (8 * ((k / 2) / 4) + j) 0))
          ((k / 2) % 4) :=
      getD_range_map _ _ _ _ (by omega)
    have hT : ∀ j, (fun j => compress4_coeff (p.getD (8 * ((k / 2) / 4) + j) 0)) j
        < 16 := fun j => compress4_coeff_lt _
    have hun := pack128_byte_unpack _ hT ((k / 2) % 4)
    rcases Nat.mod_two_eq_zero_or_one k with hpar | hpar
    · rw [hpar]
      rw [if_pos (by decide), hbyteval, hun.1]
      have hidx : 8 * ((k / 2) / 4) + 2 * ((k / 2) % 4) = k := by omega
      rw [hidx]
      rw [compress4_coeff_congr _ _ hfix, ← hccast]
      exact herr.1
    · rw [hpar]
      rw [if_neg (by decide), hbyteval, hun.2]
      have hidx : 8 * ((k / 2) / 4) + (2 * ((k / 2) % 4) + 1) = k := by omega
      rw [hidx]
      rw [compress4_coeff_congr _ _ hfix, ← hccast]
      exact herr.1
  · -- 160-byte mode
    rw [getD_range_map _ _ _ _ hk]
    have hbyteval : ∀ i, i < 5 → ((List.range 160).map fun kb =>
        pack160_byte (fun j => compress5_coeff (p.getD (8 * (kb / 5) + j) 0))
          (kb % 5)).getD (5 * (k / 8) + i) 0 =
        pack160_byte (fun j => compress5_coeff (p.getD (8 * (k / 8) + j) 0)) i := by
      intro i hi
      have h1 := getD_range_map (fun kb =>
        pack160_byte (fun j => compress5_coeff (p.getD (8 * (kb / 5) + j) 0))
          (kb % 5)) 160 (5 * (k / 8) + i) 0 (by omega)
      rw [h1]
      show pack160_byte (fun j => compress5_coeff
          (p.getD (8 * ((5 * (k / 8) + i) / 5) + j) 0)) ((5 * (k / 8) + i) % 5) =
        pack160_byte (fun j => compress5_coeff (p.getD (8 * (k / 8) + j) 0)) i
      have e1 : (5 * (k / 8) + i) / 5 = k / 8 := by omega
      have e2 : (5 * (k / 8) + i) % 5 = i := by omega
      rw [e1, e2]
    have hT : ∀ j, (fun j => compress5_coeff (p.getD (8 * (k / 8) + j) 0)) j
        < 32 := fun j => compress5_coeff_lt _
    have hun := pack160_byte_unpack _ hT (k % 8) (by omega)
    have hbv0 := hbyteval 0 (by omega)
    simp only [Nat.add_zero] at hbv0
    rw [hbv0, hbyteval 1 (by omega), hbyteval 2 (by omega),
      hbyteval 3 (by omega), hbyteval 4 (by omega)]
    have hmask : compress5_coeff (p.getD (8 * (k / 8) + k % 8) 0) &&& 31 =
        compress5_coeff (p.getD (8 * (k / 8) + k % 8) 0) := by
      rw [and_31]
      have := compress5_coeff_lt (p.getD (8 * (k / 8) + k % 8) 0)
      omega
    rw [decompress5_coeff_congr _ _ (hun.trans hmask.symm)]
    have hidx : 8 * (k / 8) + k % 8 = k := by omega
    rw [hidx]
    rw [compress5_coeff_congr _ _ hfix, ← hccast]
    exact herr.2

/-- Witness for C3 at the constant polynomial `[1000, …]`, index 0: the
4-bit path decompresses to 1040 (distance 40 ≤ 105), the 5-bit path to
1040 as well (distance 40 ≤ 53). -/
theorem C3_compression_error_bound_witness :
    ((∀ c ∈ List.replicate 256 (1000 : Int), -(KYBER_Q : Int) ≤ c ∧ c < KYBER_Q) ∧
      0 < KYBER_N) ∧
    (distq (((poly_decompress 128 ((poly_compress 128
          (List.replicate 256 (1000 : Int))).getD [])).getD []).getD 0 0)
        (canonicalize ((List.replicate 256 (1000 : Int)).getD 0 0)) ≤ 105 ∧
      distq (((poly_decompress 160 ((poly_compress 160
          (List.replicate 256 (1000 : Int))).getD [])).getD []).getD 0 0)
        (canonicalize ((List.replicate 256 (1000 : Int)).getD 0 0)) ≤ 53) := by
  have hc : ∀ c ∈ List.replicate 256 (1000 : Int), -(KYBER_Q : Int) ≤ c ∧
      c < KYBER_Q := fun c hcm => by
    rw [List.eq_of_mem_replicate hcm]
    norm_num [KYBER_Q]
  have h4c : poly_compress 128 (List.replicate 256 (1000 : Int)) =
      some ((poly_compress 128 (List.replicate 256 (1000 : Int))).getD []) := rfl
  have h4d : poly_decompress 128 ((poly_compress 128
      (List.replicate 256 (1000 : Int))).getD []) =
      some ((poly_decompress 128 ((poly_compress 128
        (List.replicate 256 (1000 : Int))).getD [])).getD []) := rfl
  have h5c : poly_compress 160 (List.replicate 256 (1000 : Int)) =
      some ((poly_compress 160 (List.replicate 256 (1000 : Int))).getD []) := rfl
  have h5d : poly_decompress 160 ((poly_compress 160
      (List.replicate 256 (1000 : Int))).getD []) =
      some ((poly_decompress 160 ((poly_compress 160
        (List.replicate 256 (1000 : Int))).getD [])).getD []) := rfl
  exact ⟨⟨hc, by norm_num [KYBER_N]⟩,
    C3_compression_error_bound (List.replicate 256 1000) hc _ _ _ _
      h4c h4d h5c h5d 0 (by norm_num [KYBER_N])⟩

end KyberPoly
